import Mathlib

/-!
Verification of the FLoBC backend schema (src/backend/src/schema.rs).

The schema keeps four persistent collections (`SchemaImpl` in the source):
a model store keyed by derived addresses, a latest-model pointer, a trainer
score registry, and the pending-transaction pool of the current round.
We embed the state as a structure of association lists and translate each
schema operation (`register_trainer`, `update_weights`, `check_pending`,
`pubkey_from_version`, the byte codec) into a Lean function over it.

Modelling conventions, stated once:
* Floating-point scores and weights are modelled as exact rationals; the
  spec demands numeric tolerance rather than bit-exact comparison, and every
  verified property is exact-arithmetic in nature.  The byte codec claims
  are about bit patterns, so there floats are modelled as their raw 32-bit
  words.
* The exonum MapIndex iterates entries in sorted key order; we model a map
  as an insertion-ordered association list.  Every verified property is
  insensitive to iteration order.
* The exonum address derivation `Address::from_key` (an external
  collaborator per the schema) is modelled as the identity on the 32-byte
  public-key buffer produced by `pubkey_from_version`.
* A Rust `unwrap()` on a missing value, and an out-of-bounds raw-pointer
  read, are modelled by the embedded function returning `none`.
-/

namespace FLoBC

/-! ### Association-list maps (model of exonum MapIndex / RawProofMapIndex) -/

/-- Lookup in an association-list map: first entry with the given key. -/
def mget {α β : Type} [DecidableEq α] (m : List (α × β)) (a : α) : Option β :=
  match m with
  | [] => none
  | p :: rest => if p.1 = a then some p.2 else mget rest a

/-- Key membership test, model of `MapIndex::contains`. -/
def mcontains {α β : Type} [DecidableEq α] (m : List (α × β)) (a : α) : Bool :=
  match m with
  | [] => false
  | p :: rest => if p.1 = a then true else mcontains rest a

/-- Insert-or-replace, model of `MapIndex::put`. -/
def mput {α β : Type} [DecidableEq α] (m : List (α × β)) (a : α) (b : β) :
    List (α × β) :=
  match m with
  | [] => [(a, b)]
  | p :: rest => if p.1 = a then (a, b) :: rest else p :: mput rest a b

/-- The list of keys, model of `MapIndex::keys`. -/
def mkeys {α β : Type} (m : List (α × β)) : List α :=
  m.map Prod.fst

/-! ### The model record -/

/-- Modelled from the spec: the file model.rs holding the `Model` struct is
not under src/, only its use sites are.  Per the data model section a model
is a version (unsigned 32-bit, modelled as Nat), a size, and a weight
vector of that length. -/
structure Model where
  version : Nat
  size : Nat
  weights : List ℚ
deriving DecidableEq

/-- Modelled from the spec: the constructor `Model::new(version, size,
weights)` of the absent model.rs, a plain record constructor. -/
def Model.new (version : Nat) (size : Nat) (weights : List ℚ) : Model :=
  ⟨version, size, weights⟩

/-- Modelled from the spec: `Model::aggregate` lives in the absent model.rs.
Per the aggregation step of the spec, for each coordinate i the new weight
is `weights[i] + delta[i] * trainerWeight`. -/
def Model.aggregate (m : Model) (updates : List ℚ) (tw : ℚ) : Model :=
  { m with weights := List.zipWith (fun w d => w + d * tw) m.weights updates }

/-! ### Schema state -/

/-- The mutable schema state of `SchemaImpl`.  Model-store keys are 32-byte
buffers (`List Nat`); trainer addresses are opaque (`Nat`).  Trainer scores
are stored in the source as decimal strings of f64 values and parsed back as
floats; we keep the numeric value as a rational.  Pending transactions are
stored in the source as byte buffers through the codec verified separately
below; we keep the decoded delta vector. -/
structure SchemaState where
  models : List (List Nat × Model)
  latest_version_addr : Option (List Nat)
  trainers_scores : List (Nat × ℚ)
  pending_transactions : List (Nat × List ℚ)
deriving DecidableEq

/-- Model of `SchemaUtils::pubkey_from_version`: a 32-byte all-zero buffer
whose first four bytes are the big-endian bytes of the version. -/
def pubkey_from_version (version : Nat) : List Nat :=
  version / 2 ^ 24 % 256 :: version / 2 ^ 16 % 256 ::
    version / 2 ^ 8 % 256 :: version % 256 :: List.replicate 28 0

/-- Model of `SchemaImpl::register_trainer`.  The trainer count is taken
before the membership test, exactly as in the source; if the address is
already registered nothing changes; otherwise every existing score is
overwritten with `1/(count+1)` and the new trainer is appended with the
same score. -/
def register_trainer (s : SchemaState) (trainer_addr : Nat) : SchemaState :=
  let num_of_trainers : ℚ := (s.trainers_scores.length : ℚ) + 1
  let starter_score : ℚ := 1 / num_of_trainers
  if mcontains s.trainers_scores trainer_addr then s
  else
    { s with trainers_scores :=
        (s.trainers_scores.map (fun p => (p.1, starter_score))) ++
          [(trainer_addr, starter_score)] }

/-- Model of lines 102-115 of `update_weights`: if the model store is empty,
create the genesis model (version 0, all weights `INIT_WEIGHT`), store it
under the derived key of version 0 and point the latest-version entry at it;
then dereference the latest pointer (the two `unwrap()`s become `none` on
failure) and return the latest model together with the possibly-extended
state. -/
def getLatest (MODEL_SIZE : Nat) (INIT_WEIGHT : ℚ) (s : SchemaState) :
    Option (Model × SchemaState) :=
  let s1 :=
    if s.models.length = 0 then
      let version_hash := pubkey_from_version 0
      let genesis := Model.new 0 MODEL_SIZE (List.replicate MODEL_SIZE INIT_WEIGHT)
      { s with models := mput s.models version_hash genesis,
               latest_version_addr := some version_hash }
    else s
  match s1.latest_version_addr with
  | none => none
  | some version_hash =>
    match mget s1.models version_hash with
    | none => none
    | some latest_model => some (latest_model, s1)

/-- The aggregation loop of `update_weights`: fold over the pending pool,
looking up each trainer score (an `unwrap()` in the source, hence `none`
when a contributor is unregistered) and calling `Model::aggregate`. -/
def aggregate_pending (scores : List (Nat × ℚ)) :
    List (Nat × List ℚ) → Model → Option Model
  | [], m => some m
  | (t, d) :: rest, m =>
    match mget scores t with
    | none => none
    | some tw => aggregate_pending scores rest (m.aggregate d tw)

/-- Model of `SchemaImpl::update_weights`: obtain the latest model (creating
genesis if the store is empty), build the successor model with version + 1
and the same weights, aggregate every pending transaction weighted by the
trainer score, clear the pool, store the new model under its derived key and
repoint the latest-version entry. -/
def update_weights (MODEL_SIZE : Nat) (INIT_WEIGHT : ℚ) (s : SchemaState) :
    Option SchemaState :=
  match getLatest MODEL_SIZE INIT_WEIGHT s with
  | none => none
  | some (latest_model, s1) =>
    let new_model0 :=
      Model.new (latest_model.version + 1) latest_model.size latest_model.weights
    match aggregate_pending s1.trainers_scores s1.pending_transactions new_model0 with
    | none => none
    | some new_model =>
      let new_version_hash := pubkey_from_version new_model.version
      some { s1 with
              pending_transactions := [],
              models := mput s1.models new_version_hash new_model,
              latest_version_addr := some new_version_hash }

/-- The contributed-weight sum of `check_pending`: fold the trainer scores
of the given pool addresses, `none` when a lookup misses (the source
unwraps there). -/
def contribSum (scores : List (Nat × ℚ)) : List Nat → Option ℚ
  | [] => some 0
  | a :: rest =>
    match mget scores a, contribSum scores rest with
    | some w, some r => some (w + r)
    | _, _ => none

/-- Model of `SchemaImpl::check_pending`.  The parameter `qthresh` models the
externally supplied `MAJORITY_RATIO` constant.  A duplicate submission
returns false and leaves the state unchanged; otherwise the entry is
inserted and the contributed-weight sum over every address now in the pool
is compared against the threshold. -/
def check_pending (qthresh : ℚ) (s : SchemaState) (trainer_addr : Nat)
    (updates : List ℚ) : Option (Bool × SchemaState) :=
  if mcontains s.pending_transactions trainer_addr then some (false, s)
  else
    let s1 :=
      { s with pending_transactions := mput s.pending_transactions trainer_addr updates }
    match contribSum s1.trainers_scores (mkeys s1.pending_transactions) with
    | none => none
    | some r => some (decide (qthresh ≤ r), s1)

/-- The three-valued submission outcome named by the spec. -/
inductive SubmitOutcome where
  | rejectedDuplicate
  | acceptedBelowQuorum
  | acceptedQuorumReached
deriving DecidableEq

/-- Modelled from the spec: the spec requires submit to expose a
three-valued outcome where the source's `check_pending` collapses both
rejection and below-quorum acceptance to false.  This definition refines
`check_pending` by naming its branches; `check_pending_refines_submit`
below proves the two agree. -/
def submit (qthresh : ℚ) (s : SchemaState) (trainer_addr : Nat)
    (updates : List ℚ) : Option (SubmitOutcome × SchemaState) :=
  if mcontains s.pending_transactions trainer_addr then
    some (.rejectedDuplicate, s)
  else
    let s1 :=
      { s with pending_transactions := mput s.pending_transactions trainer_addr updates }
    match contribSum s1.trainers_scores (mkeys s1.pending_transactions) with
    | none => none
    | some r =>
      some (if qthresh ≤ r then .acceptedQuorumReached else .acceptedBelowQuorum, s1)

/-- The collapse of the three-valued outcome to the boolean the source
returns: only a quorum-reaching acceptance yields true. -/
def SubmitOutcome.toBool : SubmitOutcome → Bool
  | .acceptedQuorumReached => true
  | _ => false

/-! ### The byte codec (`SchemaUtils::float_vec_to_byte_slice`,
`SchemaUtils::byte_slice_to_float_vec`)

These reinterpret memory between f32 vectors and byte buffers without
inspecting the floats numerically, so here a float is its raw 32-bit word
(a Nat below 2^32) and host endianness is modelled as little-endian. -/

/-- Serialize words to bytes, four host-endian bytes per word. -/
def wordsToBytes : List Nat → List Nat
  | [] => []
  | w :: ws =>
    w % 256 :: w / 2 ^ 8 % 256 :: w / 2 ^ 16 % 256 :: w / 2 ^ 24 % 256 ::
      wordsToBytes ws

/-- Deserialize bytes to words, one word per four host-endian bytes;
trailing bytes that do not fill a word are dropped. -/
def bytesToWords : List Nat → List Nat
  | b0 :: b1 :: b2 :: b3 :: bs =>
    (b0 + 2 ^ 8 * b1 + 2 ^ 16 * b2 + 2 ^ 24 * b3) :: bytesToWords bs
  | _ => []

/-- Model of `SchemaUtils::float_vec_to_byte_slice`: the source reads
`MODEL_SIZE * 4` bytes from the vector's memory regardless of its length,
so it serializes exactly the first `MODEL_SIZE` floats, and reads out of
bounds (`none` here) when the vector is shorter than `MODEL_SIZE`. -/
def float_vec_to_byte_slice (MODEL_SIZE : Nat) (floats : List Nat) :
    Option (List Nat) :=
  if MODEL_SIZE ≤ floats.length then
    some (wordsToBytes (floats.take MODEL_SIZE))
  else none

/-- Model of `SchemaUtils::byte_slice_to_float_vec`: the source reads
`MODEL_SIZE` f32 values from the buffer's memory regardless of its length,
so it deserializes exactly the first `MODEL_SIZE * 4` bytes — silently
ignoring any excess — and reads out of bounds (`none` here) when the buffer
is shorter than `MODEL_SIZE * 4` bytes. -/
def byte_slice_to_float_vec (MODEL_SIZE : Nat) (bytes : List Nat) :
    Option (List Nat) :=
  if MODEL_SIZE * 4 ≤ bytes.length then
    some (bytesToWords (bytes.take (MODEL_SIZE * 4)))
  else none

/-- A sequence of `register_trainer` calls, one per listed address. -/
def register_all (s : SchemaState) (addrs : List Nat) : SchemaState :=
  addrs.foldl register_trainer s

/-- The registry holds no duplicate address and every score is the uniform
share of the current trainer count. -/
def UniformScores (ts : List (Nat × ℚ)) : Prop :=
  (mkeys ts).Nodup ∧ ∀ p ∈ ts, p.2 = 1 / (ts.length : ℚ)

/-! ### Helper lemmas about the map model -/

theorem mkeys_cons {α β : Type} (p : α × β) (rest : List (α × β)) :
    mkeys (p :: rest) = p.1 :: mkeys rest := rfl

theorem mcontains_iff_mem_mkeys {α β : Type} [DecidableEq α]
    (m : List (α × β)) (a : α) : mcontains m a = true ↔ a ∈ mkeys m := by
  induction m with
  | nil => simp [mcontains, mkeys]
  | cons p rest ih =>
    by_cases h : p.1 = a
    · simp [mcontains, mkeys_cons, h]
    · have hne : a ≠ p.1 := fun he => h (Eq.symm he)
      simp [mcontains, mkeys_cons, h, ih, hne]

theorem mget_mput_self {α β : Type} [DecidableEq α]
    (m : List (α × β)) (a : α) (b : β) : mget (mput m a b) a = some b := by
  induction m with
  | nil => simp [mput, mget]
  | cons p rest ih =>
    by_cases h : p.1 = a <;> simp [mput, mget, h, ih]

theorem mget_mput_ne {α β : Type} [DecidableEq α]
    (m : List (α × β)) (a a' : α) (b : β) (h : a' ≠ a) :
    mget (mput m a b) a' = mget m a' := by
  have hne : ¬(a = a') := fun he => h (Eq.symm he)
  induction m with
  | nil => simp [mput, mget, hne]
  | cons p rest ih =>
    by_cases hp : p.1 = a
    · subst hp
      simp [mput, mget, hne, ih]
    · simp [mput, mget, hp, ih]

theorem pubkey_from_version_inj_aux (v w : Nat) (hv : v < 2 ^ 32)
    (hw : w < 2 ^ 32) (h : pubkey_from_version v = pubkey_from_version w) :
    v = w := by
  simp only [pubkey_from_version, List.cons.injEq, and_true] at h
  omega

/-! ### Helper lemmas about the byte codec -/

theorem wordsToBytes_length (ws : List Nat) :
    (wordsToBytes ws).length = ws.length * 4 := by
  induction ws with
  | nil => rfl
  | cons w ws ih => simp [wordsToBytes, ih]; omega

theorem bytesToWords_wordsToBytes (ws : List Nat) (h : ∀ w ∈ ws, w < 2 ^ 32) :
    bytesToWords (wordsToBytes ws) = ws := by
  induction ws with
  | nil => rfl
  | cons w ws ih =>
    have hw : w < 2 ^ 32 := h w (by simp)
    have hrec := ih (fun x hx => h x (List.mem_cons_of_mem _ hx))
    simp only [wordsToBytes, bytesToWords, hrec, List.cons.injEq, and_true]
    omega

/-! ### Claim theorems -/

/-- Claim C5: `pubkey_from_version` is a pure deterministic function — two
evaluations at the same version yield the identical key — and distinct
versions inside the 32-bit version space yield distinct keys. -/
theorem pubkey_from_version_det_inj (v w : Nat) (hv : v < 2 ^ 32)
    (hw : w < 2 ^ 32) (hne : v ≠ w) :
    pubkey_from_version v = pubkey_from_version v ∧
      pubkey_from_version v ≠ pubkey_from_version w :=
  ⟨rfl, fun h => hne (pubkey_from_version_inj_aux v w hv hw h)⟩

/-- Witness for C5 at versions 0 and 1. -/
theorem pubkey_from_version_det_inj_witness :
    (0 : Nat) < 2 ^ 32 ∧ (1 : Nat) < 2 ^ 32 ∧ (0 : Nat) ≠ 1 ∧
      (pubkey_from_version 0 = pubkey_from_version 0 ∧
        pubkey_from_version 0 ≠ pubkey_from_version 1) :=
  ⟨by decide, by decide, by decide,
    pubkey_from_version_det_inj 0 1 (by decide) (by decide) (by decide)⟩

/-- Claim C6: on an empty model store, `getLatest` (lines 102-115 of
`update_weights`) creates exactly one genesis model of version 0, size
`MODEL_SIZE` and all-`INIT_WEIGHT` weights, stores it under the derived key
of version 0, and points the latest-version entry at that key. -/
theorem getLatest_empty_genesis (MODEL_SIZE : Nat) (INIT_WEIGHT : ℚ)
    (s : SchemaState) (h : s.models = []) :
    ∃ gm s1,
      getLatest MODEL_SIZE INIT_WEIGHT s = some (gm, s1) ∧
      gm.version = 0 ∧ gm.size = MODEL_SIZE ∧
      gm.weights = List.replicate MODEL_SIZE INIT_WEIGHT ∧
      s1.models = [(pubkey_from_version 0, gm)] ∧
      s1.latest_version_addr = some (pubkey_from_version 0) := by
  obtain ⟨ms, lva, ts, pt⟩ := s
  simp only at h
  subst h
  refine ⟨Model.new 0 MODEL_SIZE (List.replicate MODEL_SIZE INIT_WEIGHT),
    SchemaState.mk
      [(pubkey_from_version 0,
        Model.new 0 MODEL_SIZE (List.replicate MODEL_SIZE INIT_WEIGHT))]
      (some (pubkey_from_version 0)) ts pt,
    ?_, rfl, rfl, rfl, rfl, rfl⟩
  simp [getLatest, mput, mget]

/-- Witness for C6: the empty state with `MODEL_SIZE` 2 and `INIT_WEIGHT` 0. -/
theorem getLatest_empty_genesis_witness :
    (SchemaState.mk [] none [] []).models = [] ∧
      ∃ gm s1,
        getLatest 2 0 (SchemaState.mk [] none [] []) = some (gm, s1) ∧
        gm.version = 0 ∧ gm.size = 2 ∧
        gm.weights = List.replicate 2 0 ∧
        s1.models = [(pubkey_from_version 0, gm)] ∧
        s1.latest_version_addr = some (pubkey_from_version 0) :=
  ⟨rfl, getLatest_empty_genesis 2 0 (SchemaState.mk [] none [] []) rfl⟩

/-- Claim C7: a submission from a trainer that already has a pending entry
this round is rejected — `check_pending` returns false and the state,
in particular the pending pool, is returned completely unchanged; under the
three-valued refinement the outcome is the duplicate rejection. -/
theorem check_pending_duplicate (qthresh : ℚ) (s : SchemaState)
    (trainer_addr : Nat) (updates : List ℚ)
    (h : mcontains s.pending_transactions trainer_addr = true) :
    check_pending qthresh s trainer_addr updates = some (false, s) ∧
      submit qthresh s trainer_addr updates = some (.rejectedDuplicate, s) := by
  constructor <;> simp [check_pending, submit, h]

/-- Witness for C7: trainer 1 resubmitting while its entry `[5, 5]` is
pending; the pool keeps that entry and gains nothing. -/
theorem check_pending_duplicate_witness :
    mcontains (SchemaState.mk [] none [(1, 1/2), (2, 1/2)]
        [(1, [5, 5])]).pending_transactions 1 = true ∧
      check_pending (1/2) (SchemaState.mk [] none [(1, 1/2), (2, 1/2)]
          [(1, [5, 5])]) 1 [9, 9] =
        some (false, SchemaState.mk [] none [(1, 1/2), (2, 1/2)] [(1, [5, 5])]) ∧
      submit (1/2) (SchemaState.mk [] none [(1, 1/2), (2, 1/2)]
          [(1, [5, 5])]) 1 [9, 9] =
        some (.rejectedDuplicate,
          SchemaState.mk [] none [(1, 1/2), (2, 1/2)] [(1, [5, 5])]) :=
  ⟨by decide,
    (check_pending_duplicate (1/2) (SchemaState.mk [] none [(1, 1/2), (2, 1/2)]
      [(1, [5, 5])]) 1 [9, 9] (by decide)).1,
    (check_pending_duplicate (1/2) (SchemaState.mk [] none [(1, 1/2), (2, 1/2)]
      [(1, [5, 5])]) 1 [9, 9] (by decide)).2⟩

/-- Claim C8 (code bug): a submission from an address absent from the
trainer registry drives `check_pending` into `trainers_scores.get(..)
.unwrap()` on a missing record: the source panics — modelled by `none` —
instead of surfacing a checked UnknownTrainer error, and the panic happens
after the entry was already inserted into the pool. -/
theorem check_pending_unregistered_panics :
    check_pending (1/2) (SchemaState.mk [] none [] []) 7 [1, 1] = none ∧
      mcontains (mput (SchemaState.mk [] none [] []).pending_transactions
        7 [1, 1]) 7 = true := by
  constructor <;> decide

/-- Claim C9 (code bug): `byte_slice_to_float_vec` never validates the
buffer length.  A 12-byte buffer with `MODEL_SIZE` 2 is not of length
`MODEL_SIZE * 4`, yet the source happily reinterprets its first 8 bytes as
two floats (bytes of 1.0f twice, word 1065353216) instead of failing with
SerializationError; a too-short buffer makes it read out of bounds
(modelled `none`), again not a checked error. -/
theorem byte_slice_to_float_vec_no_length_check :
    byte_slice_to_float_vec 2 [0, 0, 128, 63, 0, 0, 128, 63, 0, 0, 128, 63] =
        some [1065353216, 1065353216] ∧
      (List.length [0, 0, 128, 63, 0, 0, 128, 63, 0, 0, 128, 63] ≠ 2 * 4) ∧
      byte_slice_to_float_vec 2 [0, 0, 0, 0] = none := by
  refine ⟨by decide, by decide, by decide⟩

/-- Refinement of the source boolean by the three-valued outcome: the
source's `check_pending` is exactly `submit` with the outcome collapsed to
its boolean, so naming the branches loses no information. -/
theorem check_pending_eq_submit (qthresh : ℚ) (s : SchemaState)
    (trainer_addr : Nat) (updates : List ℚ) :
    check_pending qthresh s trainer_addr updates =
      (submit qthresh s trainer_addr updates).map
        (fun p => (p.1.toBool, p.2)) := by
  by_cases hc : mcontains s.pending_transactions trainer_addr
  · simp [check_pending, submit, hc, SubmitOutcome.toBool]
  · simp only [check_pending, submit, hc, Bool.false_eq_true, if_neg]
    cases hsum : contribSum s.trainers_scores
        (mkeys (mput s.pending_transactions trainer_addr updates)) with
    | none => simp
    | some r =>
      by_cases hq : qthresh ≤ r <;> simp [hq, SubmitOutcome.toBool]

/-- Claim C3: a submission from a trainer with no pending entry this round
inserts the entry and recomputes the contributed ratio live, as the sum of
the current registry weights over every address now in the pool; the
outcome is the quorum-reached acceptance exactly when the ratio is at least
the threshold and the below-quorum acceptance otherwise, and the source's
`check_pending` boolean is the collapse of that outcome. -/
theorem submit_new_entry_quorum (qthresh : ℚ) (s : SchemaState)
    (trainer_addr : Nat) (updates : List ℚ) (r : ℚ)
    (hdup : mcontains s.pending_transactions trainer_addr = false)
    (hsum : contribSum s.trainers_scores
        (mkeys (mput s.pending_transactions trainer_addr updates)) = some r) :
    submit qthresh s trainer_addr updates =
      some (if qthresh ≤ r then .acceptedQuorumReached else .acceptedBelowQuorum,
        { s with pending_transactions := mput s.pending_transactions trainer_addr updates }) ∧
      check_pending qthresh s trainer_addr updates =
        some (decide (qthresh ≤ r),
          { s with pending_transactions := mput s.pending_transactions trainer_addr updates }) ∧
      SubmitOutcome.toBool
          (if qthresh ≤ r then .acceptedQuorumReached else .acceptedBelowQuorum) =
        decide (qthresh ≤ r) := by
  refine ⟨?_, ?_, ?_⟩
  · simp [submit, hdup, hsum]
  · simp [check_pending, hdup, hsum]
  · by_cases hq : qthresh ≤ r <;> simp [SubmitOutcome.toBool, hq]

/-- Witness for C3: trainers 1, 2, 3 each of weight 1/3 and threshold 1/2.
The first submission contributes ratio 1/3 and is accepted below quorum;
the second raises the ratio to 2/3 and reaches quorum. -/
theorem submit_new_entry_quorum_witness :
    mcontains (SchemaState.mk [] none [(1, 1/3), (2, 1/3), (3, 1/3)]
        []).pending_transactions 1 = false ∧
      contribSum [(1, 1/3), (2, 1/3), (3, 1/3)] (mkeys (mput [] 1 [1, 1])) =
        some (1/3) ∧
      submit (1/2) (SchemaState.mk [] none [(1, 1/3), (2, 1/3), (3, 1/3)] [])
          1 [1, 1] =
        some (if (1/2 : ℚ) ≤ 1/3 then .acceptedQuorumReached
            else .acceptedBelowQuorum,
          SchemaState.mk [] none [(1, 1/3), (2, 1/3), (3, 1/3)]
            [(1, [1, 1])]) ∧
      submit (1/2) (SchemaState.mk [] none [(1, 1/3), (2, 1/3), (3, 1/3)] [])
          1 [1, 1] =
        some (.acceptedBelowQuorum,
          SchemaState.mk [] none [(1, 1/3), (2, 1/3), (3, 1/3)]
            [(1, [1, 1])]) ∧
      submit (1/2) (SchemaState.mk [] none [(1, 1/3), (2, 1/3), (3, 1/3)]
          [(1, [1, 1])]) 2 [1, -1] =
        some (.acceptedQuorumReached,
          SchemaState.mk [] none [(1, 1/3), (2, 1/3), (3, 1/3)]
            [(1, [1, 1]), (2, [1, -1])]) := by
  refine ⟨by decide, by simp [contribSum, mkeys, mput, mget],
    (submit_new_entry_quorum (1/2)
      (SchemaState.mk [] none [(1, 1/3), (2, 1/3), (3, 1/3)] []) 1 [1, 1]
      (1/3) (by decide) (by simp [contribSum, mkeys, mput, mget])).1,
    ?_, ?_⟩
  · simp [submit, mput, mcontains, contribSum, mget, mkeys]
    norm_num
  · simp [submit, mput, mcontains, contribSum, mget, mkeys]
    norm_num

/-- Claim C10: the pending-record codec round-trips bit-for-bit: a vector
of exactly `MODEL_SIZE` 32-bit words serializes to exactly
`MODEL_SIZE * 4` bytes, and deserializing those bytes restores the very
same words — NaN payloads included, since both directions only shuffle
bytes. -/
theorem codec_roundtrip (MODEL_SIZE : Nat) (v : List Nat)
    (hlen : v.length = MODEL_SIZE) (hw : ∀ w ∈ v, w < 2 ^ 32) :
    ∃ bs, float_vec_to_byte_slice MODEL_SIZE v = some bs ∧
      bs.length = MODEL_SIZE * 4 ∧
      byte_slice_to_float_vec MODEL_SIZE bs = some v := by
  subst hlen
  refine ⟨wordsToBytes v, ?_, wordsToBytes_length v, ?_⟩
  · rw [float_vec_to_byte_slice, if_pos le_rfl, List.take_length]
  · rw [byte_slice_to_float_vec, if_pos (by simp [wordsToBytes_length]),
      List.take_of_length_le (by simp [wordsToBytes_length]),
      bytesToWords_wordsToBytes v hw]

/-- Witness for C10 on a vector containing a quiet-NaN bit pattern. -/
theorem codec_roundtrip_witness :
    List.length [2143289345, 0] = 2 ∧ (∀ w ∈ [2143289345, 0], w < 2 ^ 32) ∧
      ∃ bs, float_vec_to_byte_slice 2 [2143289345, 0] = some bs ∧
        bs.length = 2 * 4 ∧
        byte_slice_to_float_vec 2 bs = some [2143289345, 0] :=
  ⟨rfl, by decide, codec_roundtrip 2 [2143289345, 0] rfl (by decide)⟩

/-! ### Registration invariant (Claim C4) -/

theorem register_trainer_step (s : SchemaState) (a : Nat)
    (h : UniformScores s.trainers_scores) :
    UniformScores (register_trainer s a).trainers_scores ∧
      (∀ x, x ∈ mkeys (register_trainer s a).trainers_scores ↔
        x ∈ mkeys s.trainers_scores ∨ x = a) := by
  by_cases hc : mcontains s.trainers_scores a
  · have ha : a ∈ mkeys s.trainers_scores := (mcontains_iff_mem_mkeys _ _).1 hc
    refine ⟨by simpa [register_trainer, hc] using h, fun x => ?_⟩
    simp only [register_trainer, hc, if_true]
    constructor
    · exact Or.inl
    · rintro (hx | rfl)
      · exact hx
      · exact ha
  · have ha : a ∉ mkeys s.trainers_scores :=
      fun hm => hc ((mcontains_iff_mem_mkeys _ _).2 hm)
    have hts : (register_trainer s a).trainers_scores =
        (s.trainers_scores.map
          (fun p => (p.1, (1 : ℚ) / ((s.trainers_scores.length : ℚ) + 1)))) ++
          [(a, (1 : ℚ) / ((s.trainers_scores.length : ℚ) + 1))] := by
      simp [register_trainer, hc]
    have hkeys : mkeys (register_trainer s a).trainers_scores =
        mkeys s.trainers_scores ++ [a] := by
      rw [hts]
      simp [mkeys, List.map_map, Function.comp]
    refine ⟨⟨?_, ?_⟩, fun x => ?_⟩
    · rw [hkeys, List.nodup_append]
      exact ⟨h.1, List.nodup_singleton a, by simpa using ha⟩
    · intro p hp
      rw [hts] at hp
      have hlen : (register_trainer s a).trainers_scores.length =
          s.trainers_scores.length + 1 := by
        rw [hts]; simp
      rw [hts] at hlen ⊢
      rw [hlen]
      push_cast
      rcases List.mem_append.1 hp with hm | hm
      · rcases List.mem_map.1 hm with ⟨q, hq, rfl⟩
        rfl
      · rcases List.mem_singleton.1 hm with rfl
        rfl
    · rw [hkeys]
      simp [List.mem_append]

theorem register_all_invariant (addrs : List Nat) :
    ∀ s : SchemaState, UniformScores s.trainers_scores →
      UniformScores (register_all s addrs).trainers_scores ∧
      (∀ x, x ∈ mkeys (register_all s addrs).trainers_scores ↔
        x ∈ mkeys s.trainers_scores ∨ x ∈ addrs) := by
  induction addrs with
  | nil =>
    intro s h
    exact ⟨h, fun x => by simp [register_all]⟩
  | cons a as ih =>
    intro s h
    have hstep := register_trainer_step s a h
    have hrec := ih (register_trainer s a) hstep.1
    have hreg : register_all s (a :: as) = register_all (register_trainer s a) as := rfl
    refine ⟨hreg ▸ hrec.1, fun x => ?_⟩
    rw [hreg, hrec.2 x, hstep.2 x, List.mem_cons]
    tauto

/-- Claim C4: after any nonempty sequence of registrations starting from the
empty registry, the registry holds exactly the distinct submitted addresses
with no duplicates, every registered weight equals 1/n for n the number of
distinct registered trainers, and the registered weights sum to exactly 1. -/
theorem register_uniform_weights (addrs : List Nat) (hne : addrs ≠ []) :
    (mkeys (register_all (SchemaState.mk [] none [] []) addrs).trainers_scores).Nodup ∧
      (∀ x, mcontains (register_all (SchemaState.mk [] none [] [])
          addrs).trainers_scores x = true ↔ x ∈ addrs) ∧
      (register_all (SchemaState.mk [] none [] []) addrs).trainers_scores.length =
        addrs.toFinset.card ∧
      (∀ p ∈ (register_all (SchemaState.mk [] none [] []) addrs).trainers_scores,
        p.2 = 1 / (addrs.toFinset.card : ℚ)) ∧
      ((register_all (SchemaState.mk [] none [] [])
          addrs).trainers_scores.map Prod.snd).sum = 1 := by
  have hinv := register_all_invariant addrs (SchemaState.mk [] none [] [])
    ⟨by simp [mkeys], by simp⟩
  set S := register_all (SchemaState.mk [] none [] []) addrs with hS
  have hmem : ∀ x, x ∈ mkeys S.trainers_scores ↔ x ∈ addrs := by
    intro x
    have := hinv.2 x
    simpa [mkeys] using this
  have hnodup := hinv.1.1
  have hlen : S.trainers_scores.length = addrs.toFinset.card := by
    have h1 : (mkeys S.trainers_scores).toFinset = addrs.toFinset := by
      ext x
      simp [List.mem_toFinset, hmem x]
    calc S.trainers_scores.length = (mkeys S.trainers_scores).length := by simp [mkeys]
      _ = (mkeys S.trainers_scores).toFinset.card :=
        (List.toFinset_card_of_nodup hnodup).symm
      _ = addrs.toFinset.card := by rw [h1]
  have hcard_pos : 0 < addrs.toFinset.card := by
    rcases List.exists_mem_of_ne_nil addrs hne with ⟨a, ha⟩
    exact Finset.card_pos.2 ⟨a, List.mem_toFinset.2 ha⟩
  have huni : ∀ p ∈ S.trainers_scores, p.2 = 1 / (addrs.toFinset.card : ℚ) := by
    intro p hp
    rw [← hlen]
    exact hinv.1.2 p hp
  refine ⟨hnodup, ?_, hlen, huni, ?_⟩
  · intro x
    rw [mcontains_iff_mem_mkeys, hmem x]
  · have hall : ∀ q ∈ S.trainers_scores.map Prod.snd,
        q = 1 / (addrs.toFinset.card : ℚ) := by
      intro q hq
      rcases List.mem_map.1 hq with ⟨p, hp, rfl⟩
      exact huni p hp
    rw [List.sum_eq_card_nsmul _ _ hall, List.length_map, hlen, nsmul_eq_mul]
    have hne0 : ((addrs.toFinset.card : ℚ)) ≠ 0 := by
      have := Nat.pos_iff_ne_zero.1 hcard_pos
      exact_mod_cast this
    field_simp

/-- Witness for C4 with the three distinct addresses 1, 2, 3: three
trainers, each of weight 1/3, summing to 1. -/
theorem register_uniform_weights_witness :
    ([1, 2, 3] : List Nat) ≠ [] ∧
      ((mkeys (register_all (SchemaState.mk [] none [] [])
          [1, 2, 3]).trainers_scores).Nodup ∧
        (∀ x, mcontains (register_all (SchemaState.mk [] none [] [])
            [1, 2, 3]).trainers_scores x = true ↔ x ∈ [1, 2, 3]) ∧
        (register_all (SchemaState.mk [] none [] [])
            [1, 2, 3]).trainers_scores.length =
          ([1, 2, 3] : List Nat).toFinset.card ∧
        (∀ p ∈ (register_all (SchemaState.mk [] none [] [])
            [1, 2, 3]).trainers_scores,
          p.2 = 1 / ((([1, 2, 3] : List Nat).toFinset.card : ℕ) : ℚ)) ∧
        ((register_all (SchemaState.mk [] none [] [])
            [1, 2, 3]).trainers_scores.map Prod.snd).sum = 1) :=
  ⟨by decide, register_uniform_weights [1, 2, 3] (by decide)⟩

/-! ### Aggregation and commit (Claims C1 and C2) -/

theorem aggregate_pending_meta (scores : List (Nat × ℚ)) :
    ∀ (pend : List (Nat × List ℚ)) (m nm : Model),
      aggregate_pending scores pend m = some nm →
      nm.version = m.version ∧ nm.size = m.size := by
  intro pend
  induction pend with
  | nil =>
    intro m nm h
    simp [aggregate_pending] at h
    subst h
    exact ⟨rfl, rfl⟩
  | cons p rest ih =>
    intro m nm h
    obtain ⟨t, d⟩ := p
    rw [aggregate_pending] at h
    cases hg : mget scores t with
    | none => rw [hg] at h; cases h
    | some tw =>
      rw [hg] at h
      have := ih (m.aggregate d tw) nm h
      simpa [Model.aggregate] using this

theorem aggregate_pending_total (scores : List (Nat × ℚ)) :
    ∀ (pend : List (Nat × List ℚ)) (m : Model),
      (∀ p ∈ pend, (mget scores p.1).isSome = true) →
      ∃ nm, aggregate_pending scores pend m = some nm := by
  intro pend
  induction pend with
  | nil => intro m _; exact ⟨m, rfl⟩
  | cons p rest ih =>
    intro m hreg
    obtain ⟨t, d⟩ := p
    have h1 : (mget scores t).isSome = true := hreg (t, d) (by simp)
    cases hg : mget scores t with
    | none => rw [hg] at h1; simp at h1
    | some tw =>
      rcases ih (m.aggregate d tw)
        (fun q hq => hreg q (List.mem_cons_of_mem _ hq)) with ⟨nm, hnm⟩
      exact ⟨nm, by rw [aggregate_pending, hg]; exact hnm⟩

theorem aggregate_pending_weights (scores : List (Nat × ℚ)) :
    ∀ (pend : List (Nat × List ℚ)) (m nm : Model),
      aggregate_pending scores pend m = some nm →
      (∀ p ∈ pend, p.2.length = m.weights.length) →
      nm.weights.length = m.weights.length ∧
      ∀ i, i < m.weights.length →
        nm.weights.getD i 0 = m.weights.getD i 0 +
          (pend.map (fun p => p.2.getD i 0 * (mget scores p.1).getD 0)).sum := by
  intro pend
  induction pend with
  | nil =>
    intro m nm h _
    simp [aggregate_pending] at h
    subst h
    simp
  | cons p rest ih =>
    intro m nm h hlen
    obtain ⟨t, d⟩ := p
    rw [aggregate_pending] at h
    cases hg : mget scores t with
    | none => rw [hg] at h; cases h
    | some tw =>
      rw [hg] at h
      have hd : d.length = m.weights.length := hlen (t, d) (by simp)
      have hm1 : (m.aggregate d tw).weights.length = m.weights.length := by
        simp [Model.aggregate, hd]
      have hrec := ih (m.aggregate d tw) nm h
        (fun q hq => (hlen q (List.mem_cons_of_mem _ hq)).trans hm1.symm)
      refine ⟨hrec.1.trans hm1, fun i hi => ?_⟩
      have h2 := hrec.2 i (by rw [hm1]; exact hi)
      rw [h2]
      have hid : i < d.length := by omega
      have hiz : i < (List.zipWith (fun w x => w + x * tw) m.weights d).length := by
        rw [List.length_zipWith]
        omega
      have hstep : (m.aggregate d tw).weights.getD i 0 =
          m.weights.getD i 0 + d.getD i 0 * tw := by
        simp only [Model.aggregate]
        rw [List.getD_eq_getElem _ _ hiz, List.getD_eq_getElem _ _ hi,
          List.getD_eq_getElem _ _ hid]
        simp [List.getElem_zipWith]
      rw [hstep, List.map_cons, List.sum_cons, hg]
      simp only [Option.getD_some]
      ring

/-- Full characterization of a successful `update_weights` call on a
non-empty store: the new model is stored under the derived key of its
version, the latest pointer moves there, and the pool is cleared. -/
theorem update_weights_eq (MODEL_SIZE : Nat) (INIT_WEIGHT : ℚ)
    (s : SchemaState) (k : List Nat) (m nm : Model)
    (hne : s.models ≠ [])
    (hlatest : s.latest_version_addr = some k)
    (hm : mget s.models k = some m)
    (hagg : aggregate_pending s.trainers_scores s.pending_transactions
        (Model.new (m.version + 1) m.size m.weights) = some nm) :
    update_weights MODEL_SIZE INIT_WEIGHT s =
      some { s with
              pending_transactions := [],
              models := mput s.models (pubkey_from_version nm.version) nm,
              latest_version_addr := some (pubkey_from_version nm.version) } := by
  have hlen : ¬(s.models.length = 0) := by
    simpa [List.length_eq_zero] using hne
  simp only [update_weights, getLatest, if_neg hlen, hlatest, hm, hagg]

/-- Claim C1: a commit obtains the new weight vector from the latest
weights by adding, for each pending entry, delta times the trainer weight
at every coordinate — plain weighted summation, with no further division by
contributor count. -/
theorem update_weights_weighted_sum (MODEL_SIZE : Nat) (INIT_WEIGHT : ℚ)
    (s : SchemaState) (k : List Nat) (m : Model)
    (hne : s.models ≠ [])
    (hlatest : s.latest_version_addr = some k)
    (hm : mget s.models k = some m)
    (hreg : ∀ p ∈ s.pending_transactions, (mget s.trainers_scores p.1).isSome = true)
    (hlen : ∀ p ∈ s.pending_transactions, p.2.length = m.weights.length) :
    ∃ s' nm, update_weights MODEL_SIZE INIT_WEIGHT s = some s' ∧
      mget s'.models (pubkey_from_version (m.version + 1)) = some nm ∧
      s'.latest_version_addr = some (pubkey_from_version (m.version + 1)) ∧
      nm.version = m.version + 1 ∧
      nm.weights.length = m.weights.length ∧
      ∀ i, i < m.weights.length →
        nm.weights.getD i 0 = m.weights.getD i 0 +
          (s.pending_transactions.map
            (fun p => p.2.getD i 0 * (mget s.trainers_scores p.1).getD 0)).sum := by
  rcases aggregate_pending_total s.trainers_scores s.pending_transactions
    (Model.new (m.version + 1) m.size m.weights) hreg with ⟨nm, hagg⟩
  have hmeta := aggregate_pending_meta s.trainers_scores s.pending_transactions
    _ nm hagg
  have hw := aggregate_pending_weights s.trainers_scores s.pending_transactions
    _ nm hagg hlen
  have heq := update_weights_eq MODEL_SIZE INIT_WEIGHT s k m nm hne hlatest hm hagg
  have hver : nm.version = m.version + 1 := hmeta.1
  refine ⟨_, nm, heq, ?_, ?_, hver, hw.1, hw.2⟩
  · show mget (mput s.models (pubkey_from_version nm.version) nm)
        (pubkey_from_version (m.version + 1)) = some nm
    rw [hver]
    exact mget_mput_self _ _ _
  · show some (pubkey_from_version nm.version) =
        some (pubkey_from_version (m.version + 1))
    rw [hver]

/-- Claim C2: after a successful commit the published version equals the
previous latest version plus one, the pending pool is empty, the latest
pointer refers to the new model, and the prior model is still retrievable
under its own key. -/
theorem update_weights_commit_post (MODEL_SIZE : Nat) (INIT_WEIGHT : ℚ)
    (s : SchemaState) (V : Nat) (m : Model)
    (hV : V + 1 < 2 ^ 32)
    (hne : s.models ≠ [])
    (hlatest : s.latest_version_addr = some (pubkey_from_version V))
    (hm : mget s.models (pubkey_from_version V) = some m)
    (hver : m.version = V)
    (hreg : ∀ p ∈ s.pending_transactions, (mget s.trainers_scores p.1).isSome = true) :
    ∃ s' nm, update_weights MODEL_SIZE INIT_WEIGHT s = some s' ∧
      nm.version = V + 1 ∧
      mget s'.models (pubkey_from_version (V + 1)) = some nm ∧
      s'.latest_version_addr = some (pubkey_from_version (V + 1)) ∧
      s'.pending_transactions = [] ∧
      mget s'.models (pubkey_from_version V) = some m := by
  rcases aggregate_pending_total s.trainers_scores s.pending_transactions
    (Model.new (m.version + 1) m.size m.weights) hreg with ⟨nm, hagg⟩
  have hmeta := aggregate_pending_meta s.trainers_scores s.pending_transactions
    _ nm hagg
  have heq := update_weights_eq MODEL_SIZE INIT_WEIGHT s
    (pubkey_from_version V) m nm hne hlatest hm hagg
  have hver' : nm.version = V + 1 := by
    have h1 := hmeta.1
    simp only [Model.new] at h1
    rw [h1, hver]
  have hkeyne : pubkey_from_version V ≠ pubkey_from_version (V + 1) := by
    intro hkey
    have := pubkey_from_version_inj_aux V (V + 1) (by omega) hV hkey
    omega
  refine ⟨_, nm, heq, hver', ?_, ?_, rfl, ?_⟩
  · show mget (mput s.models (pubkey_from_version nm.version) nm)
        (pubkey_from_version (V + 1)) = some nm
    rw [hver']
    exact mget_mput_self _ _ _
  · show some (pubkey_from_version nm.version) =
        some (pubkey_from_version (V + 1))
    rw [hver']
  · show mget (mput s.models (pubkey_from_version nm.version) nm)
        (pubkey_from_version V) = some m
    rw [hver', mget_mput_ne _ _ _ _ hkeyne]
    exact hm

/-- Witness for C1 at the spec example: genesis weights `[0, 0]`, trainers
1 and 2 of weight 1/2 submitting deltas `[1, 1]` and `[1, -1]`; the commit
publishes version 1 with weights exactly `[1, 0]`. -/
theorem update_weights_weighted_sum_witness :
    ((SchemaState.mk [(pubkey_from_version 0, Model.new 0 2 [0, 0])]
        (some (pubkey_from_version 0)) [(1, 1/2), (2, 1/2)]
        [(1, [1, 1]), (2, [1, -1])]).models ≠ [] ∧
      (∀ p ∈ [((1 : Nat), ([1, 1] : List ℚ)), (2, [1, -1])],
        (mget [((1 : Nat), (1/2 : ℚ)), (2, 1/2)] p.1).isSome = true) ∧
      (∀ p ∈ [((1 : Nat), ([1, 1] : List ℚ)), (2, [1, -1])],
        p.2.length = 2)) ∧
      (∃ s' nm,
        update_weights 2 0 (SchemaState.mk
            [(pubkey_from_version 0, Model.new 0 2 [0, 0])]
            (some (pubkey_from_version 0)) [(1, 1/2), (2, 1/2)]
            [(1, [1, 1]), (2, [1, -1])]) = some s' ∧
        mget s'.models (pubkey_from_version 1) = some nm ∧
        s'.latest_version_addr = some (pubkey_from_version 1) ∧
        nm.version = 1 ∧
        nm.weights.length = 2 ∧
        ∀ i, i < 2 →
          nm.weights.getD i 0 = ([0, 0] : List ℚ).getD i 0 +
            ([((1 : Nat), ([1, 1] : List ℚ)), (2, [1, -1])].map
              (fun p => p.2.getD i 0 *
                (mget [((1 : Nat), (1/2 : ℚ)), (2, 1/2)] p.1).getD 0)).sum) ∧
      update_weights 2 0 (SchemaState.mk
          [(pubkey_from_version 0, Model.new 0 2 [0, 0])]
          (some (pubkey_from_version 0)) [(1, 1/2), (2, 1/2)]
          [(1, [1, 1]), (2, [1, -1])]) =
        some (SchemaState.mk
          [(pubkey_from_version 0, Model.new 0 2 [0, 0]),
           (pubkey_from_version 1, Model.new 1 2 [1, 0])]
          (some (pubkey_from_version 1)) [(1, 1/2), (2, 1/2)] []) := by
  refine ⟨⟨by simp, by decide, by decide⟩, ?_, ?_⟩
  · exact update_weights_weighted_sum 2 0
      (SchemaState.mk [(pubkey_from_version 0, Model.new 0 2 [0, 0])]
        (some (pubkey_from_version 0)) [(1, 1/2), (2, 1/2)]
        [(1, [1, 1]), (2, [1, -1])])
      (pubkey_from_version 0) (Model.new 0 2 [0, 0])
      (by simp) rfl (by simp [mget]) (by decide) (by decide)
  · simp [update_weights, getLatest, aggregate_pending, Model.aggregate,
      Model.new, mget, mput, pubkey_from_version]
    norm_num

/-- Witness for C2 at the same commit: version moves from 0 to 1, the pool
is cleared, the latest pointer moves to the key of version 1, and the
genesis model stays retrievable under the key of version 0. -/
theorem update_weights_commit_post_witness :
    ((0 : Nat) + 1 < 2 ^ 32 ∧
      (SchemaState.mk [(pubkey_from_version 0, Model.new 0 2 [0, 0])]
        (some (pubkey_from_version 0)) [(1, 1/2), (2, 1/2)]
        [(1, [1, 1]), (2, [1, -1])]).models ≠ [] ∧
      mget [(pubkey_from_version 0, Model.new 0 2 ([0, 0] : List ℚ))]
        (pubkey_from_version 0) = some (Model.new 0 2 [0, 0]) ∧
      (∀ p ∈ [((1 : Nat), ([1, 1] : List ℚ)), (2, [1, -1])],
        (mget [((1 : Nat), (1/2 : ℚ)), (2, 1/2)] p.1).isSome = true)) ∧
      ∃ s' nm,
        update_weights 2 0 (SchemaState.mk
            [(pubkey_from_version 0, Model.new 0 2 [0, 0])]
            (some (pubkey_from_version 0)) [(1, 1/2), (2, 1/2)]
            [(1, [1, 1]), (2, [1, -1])]) = some s' ∧
        nm.version = 0 + 1 ∧
        mget s'.models (pubkey_from_version (0 + 1)) = some nm ∧
        s'.latest_version_addr = some (pubkey_from_version (0 + 1)) ∧
        s'.pending_transactions = [] ∧
        mget s'.models (pubkey_from_version 0) = some (Model.new 0 2 [0, 0]) := by
  refine ⟨⟨by decide, by simp, by simp [mget], by decide⟩, ?_⟩
  exact update_weights_commit_post 2 0
    (SchemaState.mk [(pubkey_from_version 0, Model.new 0 2 [0, 0])]
      (some (pubkey_from_version 0)) [(1, 1/2), (2, 1/2)]
      [(1, [1, 1]), (2, [1, -1])])
    0 (Model.new 0 2 [0, 0])
    (by decide) (by simp) rfl (by simp [mget]) rfl (by decide)

end FLoBC
